import Mathlib

/-
Verification development for the CUDA decoding-search subsystem
(`src/Generators/Search_Cuda.cpp` of onnxruntime-genai).

The host-side control logic (SetLogits, GetScores, MinLength, IsDone,
AppendNextTokensToSequences, NextTokensFromLogits) is embedded from the
source file.  The device kernels (`cuda::BeamSearchTopK`,
`Launch_log_softmax`) and the classes `Sequences` and
`BeamSearchScorer_Cuda` are declared but not defined in the source tree;
where a claim depends on them they are modelled from the specification,
and each such definition is marked `Modelled from the spec:` in its doc
comment.  Machine floating-point scores are modelled by rationals; the
operations verified here only copy, compare and overwrite scores, so the
ordered-field structure is all that is used.
-/

namespace Generators

/-- A top-k candidate: a pair of a score and a flattened token index
(`beam * vocab_size + token`), as produced by the top-k selector. -/
abbrev Cand : Type := ℚ × ℕ

/-- The selection order on candidates: higher score first, ties broken by
lower flattened index.  This is a total order on score-index pairs and is
the stable ordering used by both the naive and the two-stage selector. -/
def candLe (a b : Cand) : Prop :=
  b.1 < a.1 ∨ (a.1 = b.1 ∧ a.2 ≤ b.2)

instance : DecidableRel candLe := fun a b => by
  unfold candLe; infer_instance

instance : IsTotal Cand candLe := by
  constructor
  intro a b
  rcases lt_trichotomy a.1 b.1 with h | h | h
  · exact Or.inr (Or.inl h)
  · rcases le_total a.2 b.2 with h2 | h2
    · exact Or.inl (Or.inr ⟨h, h2⟩)
    · exact Or.inr (Or.inr ⟨h.symm, h2⟩)
  · exact Or.inl (Or.inl h)

instance : IsTrans Cand candLe := by
  constructor
  intro a b c hab hbc
  rcases hab with hab | ⟨hab1, hab2⟩
  · rcases hbc with hbc | ⟨hbc1, _⟩
    · exact Or.inl (lt_trans hbc hab)
    · exact Or.inl (hbc1 ▸ hab)
  · rcases hbc with hbc | ⟨hbc1, hbc2⟩
    · exact Or.inl (hab1 ▸ hbc)
    · exact Or.inr ⟨hab1.trans hbc1, le_trans hab2 hbc2⟩

instance : IsAntisymm Cand candLe := by
  constructor
  rintro ⟨as, ai⟩ ⟨bs, bi⟩ hab hba
  rcases hab with hab | ⟨hab1, hab2⟩
  · rcases hba with hba | ⟨hba1, _⟩
    · exact absurd (lt_trans hab hba) (lt_irrefl _)
    · simp only at hab hba1; exact absurd (hba1 ▸ hab) (lt_irrefl _)
  · rcases hba with hba | ⟨hba1, hba2⟩
    · simp only at hab1 hba; exact absurd (hab1 ▸ hba) (lt_irrefl _)
    · simp only at hab1 hab2 hba2
      exact Prod.ext hab1 (le_antisymm hab2 hba2)

/-- Select the `k` best candidates of a list, best first, under the
stable order `candLe`: a full sort followed by taking the first `k`. -/
def topK (k : ℕ) (l : List Cand) : List Cand :=
  (l.insertionSort candLe).take k

section SelectLemmas

open List

variable {α : Type} {r : α → α → Prop} [DecidableRel r]

/-- Inserting an element that is order-dominated by at least `k` elements
of a sorted list does not change the first `k` elements. -/
theorem take_orderedInsert_of_le_count [IsTrans α r] {d : α} :
    ∀ (S : List α), Sorted r S → ∀ k : ℕ,
      k ≤ S.countP (fun x => !decide (r d x)) →
      (orderedInsert r d S).take k = S.take k := by
  intro S
  induction S with
  | nil =>
    intro _ k hk
    simp only [countP_nil, Nat.le_zero] at hk
    subst hk; rfl
  | cons b S ih =>
    intro hs k hk
    by_cases hdb : r d b
    · have hz : (b :: S).countP (fun x => !decide (r d x)) = 0 := by
        rw [countP_eq_zero]
        intro a ha
        have : r d a := by
          rcases mem_cons.mp ha with h | h
          · exact h ▸ hdb
          · exact Trans.trans hdb (rel_of_sorted_cons hs a h)
        simp [this]
      rw [hz, Nat.le_zero] at hk
      subst hk; rfl
    · rw [orderedInsert, if_neg hdb]
      cases k with
      | zero => rfl
      | succ k =>
        have hcount : k ≤ S.countP (fun x => !decide (r d x)) := by
          have : (b :: S).countP (fun x => !decide (r d x)) =
              S.countP (fun x => !decide (r d x)) + 1 := by
            rw [countP_cons]
            simp [hdb]
          omega
        rw [take_succ_cons, take_succ_cons, ih hs.of_cons k hcount]

/-- Sorting after prepending a dominated element: if at least `k`
elements of `L` are strictly better than `d`, the first `k` sorted
elements ignore `d`. -/
theorem take_insertionSort_cons [IsTrans α r] [IsTotal α r] {d : α}
    (L : List α) (k : ℕ) (hk : k ≤ L.countP (fun x => !decide (r d x))) :
    (insertionSort r (d :: L)).take k = (insertionSort r L).take k := by
  have h1 : insertionSort r (d :: L) = orderedInsert r d (insertionSort r L) := rfl
  rw [h1]
  apply take_orderedInsert_of_le_count (insertionSort r L)
    (sorted_insertionSort r L) k
  rwa [(perm_insertionSort r L).countP_eq]

/-- Sorting after prepending a list of dominated elements: each element of
`D` is beaten by at least `k` elements of `L`, so the first `k` sorted
elements of `D ++ L` are those of `L`. -/
theorem take_insertionSort_append_of_dominated [IsTrans α r] [IsTotal α r] :
    ∀ (D : List α) (L : List α) (k : ℕ),
      (∀ d ∈ D, k ≤ L.countP (fun x => !decide (r d x))) →
      (insertionSort r (D ++ L)).take k = (insertionSort r L).take k := by
  intro D
  induction D with
  | nil => intro L k _; rfl
  | cons d D ih =>
    intro L k hdom
    have step : (insertionSort r (d :: (D ++ L))).take k =
        (insertionSort r (D ++ L)).take k := by
      apply take_insertionSort_cons
      rw [countP_append]
      have := hdom d (mem_cons_self d D)
      omega
    rw [cons_append, step, ih L k (fun x hx => hdom x (mem_cons_of_mem d hx))]

/-- Sorting is a function of the multiset of elements. -/
theorem insertionSort_eq_of_perm [IsTrans α r] [IsTotal α r] [IsAntisymm α r]
    {A B : List α} (h : A ~ B) : insertionSort r A = insertionSort r B :=
  eq_of_perm_of_sorted
    ((perm_insertionSort r A).trans (h.trans (perm_insertionSort r B).symm))
    (sorted_insertionSort r A) (sorted_insertionSort r B)

end SelectLemmas

section SelectAbsorb

open List

variable {α : Type} {r : α → α → Prop} [DecidableRel r]
variable [IsTrans α r] [IsTotal α r] [IsAntisymm α r]

/-- Replacing a duplicate-free sub-collection `A` of the candidate pool
by its local top `k` does not change the global top `k`. -/
theorem take_insertionSort_absorb_left (A B : List α) (k : ℕ)
    (hnd : (A ++ B).Nodup) :
    (insertionSort r (A ++ B)).take k =
      (insertionSort r ((insertionSort r A).take k ++ B)).take k := by
  set S := insertionSort r A with hS
  set T := S.take k with hT
  set D := S.drop k with hD
  have hTD : T ++ D = S := take_append_drop k S
  have hAnodup : A.Nodup := (nodup_append.mp hnd).1
  have hperm : A ++ B ~ D ++ (T ++ B) := by
    calc A ++ B ~ S ++ B := ((perm_insertionSort r A).symm.append_right B)
      _ = (T ++ D) ++ B := by rw [hTD]
      _ ~ (D ++ T) ++ B := (perm_append_comm.append_right B)
      _ = D ++ (T ++ B) := by rw [append_assoc]
  rw [insertionSort_eq_of_perm hperm]
  have hdom : ∀ d ∈ D, k ≤ (T ++ B).countP (fun x => !decide (r d x)) := by
    intro d hd
    have hkS : k < S.length := by
      by_contra hcon
      push_neg at hcon
      rw [hD, drop_eq_nil_of_le hcon] at hd
      exact absurd hd (not_mem_nil d)
    have hTlen : T.length = k := by
      rw [hT, length_take]; omega
    have hsorted : Sorted r S := sorted_insertionSort r A
    have hpw : ∀ t ∈ T, ∀ x ∈ D, r t x :=
      (pairwise_append.mp (hTD ▸ hsorted)).2.2
    have hSnodup : S.Nodup := (perm_insertionSort r A).symm.nodup hAnodup
    have hdisj : Disjoint T D := disjoint_of_nodup_append (hTD ▸ hSnodup)
    have hstrict : ∀ t ∈ T, ¬ r d t := by
      intro t ht hrdt
      have heq : t = d := antisymm (hpw t ht d hd) hrdt
      exact hdisj ht (heq ▸ hd)
    have hcT : T.countP (fun x => !decide (r d x)) = T.length :=
      countP_eq_length.mpr (by intro a ha; simp [hstrict a ha])
    rw [countP_append]
    omega
  rw [take_insertionSort_append_of_dominated D (T ++ B) k hdom]

/-- Replacing every part of a partitioned, duplicate-free candidate pool
by its local top `k` does not change the global top `k`; `B` is an
accumulator of candidates already reduced. -/
theorem take_insertionSort_parts :
    ∀ (parts : List (List α)) (B : List α) (k : ℕ),
      (parts.flatten ++ B).Nodup →
      (insertionSort r (parts.flatten ++ B)).take k =
        (insertionSort r
          ((parts.map (fun P => (insertionSort r P).take k)).flatten ++ B)).take k := by
  intro parts
  induction parts with
  | nil => intro B k _; rfl
  | cons P parts ih =>
    intro B k hnd
    have h1 : (P :: parts).flatten ++ B = P ++ (parts.flatten ++ B) := by
      simp [append_assoc]
    rw [h1] at hnd ⊢
    rw [take_insertionSort_absorb_left P (parts.flatten ++ B) k hnd]
    set tKP := (insertionSort r P).take k with htKP
    have hperm1 : tKP ++ (parts.flatten ++ B) ~ parts.flatten ++ (tKP ++ B) := by
      calc tKP ++ (parts.flatten ++ B)
          = (tKP ++ parts.flatten) ++ B := by rw [append_assoc]
        _ ~ (parts.flatten ++ tKP) ++ B := perm_append_comm.append_right B
        _ = parts.flatten ++ (tKP ++ B) := by rw [append_assoc]
    rw [insertionSort_eq_of_perm hperm1]
    obtain ⟨hP, hJB, hdisjP⟩ := nodup_append.mp hnd
    obtain ⟨hJ, hB, hdisjJB⟩ := nodup_append.mp hJB
    have hSPnodup : (insertionSort r P).Nodup :=
      (perm_insertionSort r P).symm.nodup hP
    have htKPnodup : tKP.Nodup := (take_sublist k _).nodup hSPnodup
    have htKPsub : ∀ x ∈ tKP, x ∈ P := by
      intro x hx
      exact (perm_insertionSort r P).mem_iff.mp ((take_sublist k _).subset hx)
    have hnd2 : (parts.flatten ++ (tKP ++ B)).Nodup := by
      rw [nodup_append]
      refine ⟨hJ, ?_, ?_⟩
      · rw [nodup_append]
        refine ⟨htKPnodup, hB, ?_⟩
        intro x hxt hxB
        exact hdisjP (htKPsub x hxt) (mem_append_right _ hxB)
      · intro x hxJ hx2
        rcases mem_append.mp hx2 with hxt | hxB
        · exact hdisjP (htKPsub x hxt) (mem_append_left _ hxJ)
        · exact hdisjJB hxJ hxB
    rw [ih (tKP ++ B) k hnd2]
    have hperm2 : (parts.map (fun Q => (insertionSort r Q).take k)).flatten ++ (tKP ++ B) ~
        ((P :: parts).map (fun Q => (insertionSort r Q).take k)).flatten ++ B := by
      simp only [map_cons, flatten_cons, ← htKP]
      calc (parts.map (fun Q => (insertionSort r Q).take k)).flatten ++ (tKP ++ B)
          = ((parts.map (fun Q => (insertionSort r Q).take k)).flatten ++ tKP) ++ B := by
            rw [append_assoc]
        _ ~ (tKP ++ (parts.map (fun Q => (insertionSort r Q).take k)).flatten) ++ B :=
            perm_append_comm.append_right B
        _ = tKP ++ (parts.map (fun Q => (insertionSort r Q).take k)).flatten ++ B := by
            rw [append_assoc]
    rw [insertionSort_eq_of_perm hperm2]

end SelectAbsorb

/-- Selecting the top `k` of the per-part top `k` lists of a
duplicate-free partitioned pool equals the top `k` of the whole pool. -/
theorem topK_parts_eq (parts : List (List Cand)) (k : ℕ)
    (hnd : parts.flatten.Nodup) :
    topK k ((parts.map (topK k)).flatten) = topK k parts.flatten := by
  have h := take_insertionSort_parts (r := candLe) parts [] k (by simpa using hnd)
  simp only [List.append_nil] at h
  exact (h.symm : _)

/-- Fuel-driven worker for `chunkList`; the fuel bounds the number of
parts, one unit per produced part. -/
def chunkListAux {α : Type} (psz : ℕ) : ℕ → List α → List (List α)
  | _, [] => []
  | 0, _ :: _ => []
  | fuel + 1, x :: xs => (x :: List.take psz xs) :: chunkListAux psz fuel (List.drop psz xs)

/-- Split a list into contiguous parts of size `psz + 1` (the last part
may be shorter).  Models the partition of the vocabulary into contiguous
parts in the first top-k stage. -/
def chunkList {α : Type} (psz : ℕ) (l : List α) : List (List α) :=
  chunkListAux psz l.length l

theorem chunkList_flatten {α : Type} (psz : ℕ) (l : List α) :
    (chunkList psz l).flatten = l := by
  have H : ∀ (fuel : ℕ) (l : List α), l.length ≤ fuel →
      (chunkListAux psz fuel l).flatten = l := by
    intro fuel
    induction fuel with
    | zero =>
      intro l hl
      cases l with
      | nil => rfl
      | cons x xs => simp at hl
    | succ m ih =>
      intro l hl
      cases l with
      | nil => rfl
      | cons x xs =>
        simp only [List.length_cons] at hl
        rw [chunkListAux, List.flatten_cons,
          ih (List.drop psz xs) (by simp only [List.length_drop]; omega),
          List.cons_append, List.take_append_drop]
  exact H l.length l le_rfl

/-- The candidates of one beam's score row, paired with consecutive
flattened indices starting at `base` (`base = beam * vocab_size`). -/
def rowCandsFrom (base : ℕ) : List ℚ → List Cand
  | [] => []
  | s :: rest => (s, base) :: rowCandsFrom (base + 1) rest

theorem rowCandsFrom_map_snd (base : ℕ) (row : List ℚ) :
    (rowCandsFrom base row).map Prod.snd = List.range' base row.length := by
  induction row generalizing base with
  | nil => rfl
  | cons s rest ih =>
    rw [rowCandsFrom, List.map_cons, List.length_cons, List.range'_succ, ih]

/-- Modelled from the spec: the flattened `num_beams × vocab_size`
candidate space of one batch element, as read by `cuda::BeamSearchTopK`
(declared in `beam_search_topk.h`; its definition is not in the source
tree).  Beam `b`'s row occupies flattened indices
`b * vocab .. b * vocab + vocab - 1`. -/
def allCandsFrom (vocab : ℕ) : ℕ → List (List ℚ) → List Cand
  | _, [] => []
  | b, row :: rest => rowCandsFrom (b * vocab) row ++ allCandsFrom vocab (b + 1) rest

theorem allCandsFrom_map_snd (vocab : ℕ) :
    ∀ (rows : List (List ℚ)) (b : ℕ), (∀ r ∈ rows, r.length = vocab) →
      (allCandsFrom vocab b rows).map Prod.snd =
        List.range' (b * vocab) (rows.length * vocab) := by
  intro rows
  induction rows with
  | nil => intro b _; simp [allCandsFrom]
  | cons row rest ih =>
    intro b h
    rw [allCandsFrom, List.map_append, rowCandsFrom_map_snd,
      ih (b + 1) (fun r hr => h r (List.mem_cons_of_mem _ hr)),
      h row (List.mem_cons_self _ _)]
    have h1 : (b + 1) * vocab = b * vocab + 1 * vocab := by ring
    have h2 := List.range'_append (b * vocab) vocab (rest.length * vocab) 1
    have h3 : (row :: rest).length * vocab = rest.length * vocab + vocab := by
      rw [List.length_cons]; ring
    rw [h1, h3]
    exact h2

theorem allCandsFrom_nodup (vocab : ℕ) (rows : List (List ℚ)) (b : ℕ)
    (h : ∀ r ∈ rows, r.length = vocab) :
    (allCandsFrom vocab b rows).Nodup := by
  have h2 : ((allCandsFrom vocab b rows).map Prod.snd).Nodup := by
    rw [allCandsFrom_map_snd vocab rows b h]
    exact List.nodup_range' (b * vocab) (rows.length * vocab)
  exact h2.of_map _

/-- Modelled from the spec: the partition of the candidate space into
contiguous per-(beam, part) chunks used by the first stage of
`cuda::BeamSearchTopK`. -/
def partsFrom (psz vocab : ℕ) : ℕ → List (List ℚ) → List (List Cand)
  | _, [] => []
  | b, row :: rest =>
    chunkList psz (rowCandsFrom (b * vocab) row) ++ partsFrom psz vocab (b + 1) rest

/-- Modelled from the spec: the first stage of `cuda::BeamSearchTopK`
computes, per (beam, part), the local top `k` of that part. -/
def stage1From (k psz vocab : ℕ) : ℕ → List (List ℚ) → List (List Cand)
  | _, [] => []
  | b, row :: rest =>
    (chunkList psz (rowCandsFrom (b * vocab) row)).map (topK k) ++
      stage1From k psz vocab (b + 1) rest

theorem stage1From_eq_map (k psz vocab : ℕ) :
    ∀ (rows : List (List ℚ)) (b : ℕ),
      stage1From k psz vocab b rows = (partsFrom psz vocab b rows).map (topK k) := by
  intro rows
  induction rows with
  | nil => intro b; rfl
  | cons row rest ih =>
    intro b
    rw [stage1From, partsFrom, List.map_append, ih (b + 1)]

theorem partsFrom_flatten (psz vocab : ℕ) :
    ∀ (rows : List (List ℚ)) (b : ℕ),
      (partsFrom psz vocab b rows).flatten = allCandsFrom vocab b rows := by
  intro rows
  induction rows with
  | nil => intro b; rfl
  | cons row rest ih =>
    intro b
    rw [partsFrom, allCandsFrom, List.flatten_append, chunkList_flatten, ih (b + 1)]

/-- Modelled from the spec: the two-stage top-k of `cuda::BeamSearchTopK`
for one batch element — stage 1 takes the local top `k` of every
contiguous part of every beam's row, stage 2 merges all partial lists
into the top `k` over the flattened candidate space.  `psz + 1` is the
part size. -/
def twoStageTopK (k psz vocab : ℕ) (rows : List (List ℚ)) : List Cand :=
  topK k (stage1From k psz vocab 0 rows).flatten

/-- The naive reference selector: sort the whole flattened candidate
space best-first and take the first `k`. -/
def naiveTopK (k vocab : ℕ) (rows : List (List ℚ)) : List Cand :=
  topK k (allCandsFrom vocab 0 rows)

/-- C1: for every batch element, with `k = 2 × num_beams` and
`num_beams ∈ {1, 2, 4, 8}`, the two-stage top-k selector invoked by
`BeamSearch_Cuda::NextTokensFromLogits` returns exactly the `k` highest
(score, token) pairs over the flattened `num_beams × vocab_size`
candidate space — equal to a naive full sort-and-take-`k` over the same
scores under the stable order `candLe`, for every part size, so also
when the vocabulary spans more than one partition. -/
theorem twoStageTopK_eq_naiveTopK (num_beams k psz vocab : ℕ)
    (rows : List (List ℚ))
    (hb : num_beams = 1 ∨ num_beams = 2 ∨ num_beams = 4 ∨ num_beams = 8)
    (hk : k = 2 * num_beams)
    (hrows : rows.length = num_beams)
    (hlen : ∀ row ∈ rows, row.length = vocab) :
    twoStageTopK k psz vocab rows = naiveTopK k vocab rows := by
  unfold twoStageTopK naiveTopK
  have hnd : (partsFrom psz vocab 0 rows).flatten.Nodup := by
    rw [partsFrom_flatten]
    exact allCandsFrom_nodup vocab rows 0 hlen
  rw [stage1From_eq_map, topK_parts_eq _ _ hnd, partsFrom_flatten]

/-- Witness for C1: a concrete two-beam batch element with `vocab_size = 5`
and part size 2 (three partitions), where both selectors agree. -/
theorem twoStageTopK_eq_naiveTopK_witness :
    twoStageTopK 4 1 5 [[3, 1, 4, 1, 5], [9, 2, 6, 5, 3]] =
      naiveTopK 4 5 [[3, 1, 4, 1, 5], [9, 2, 6, 5, 3]] :=
  twoStageTopK_eq_naiveTopK 2 4 1 5 [[3, 1, 4, 1, 5], [9, 2, 6, 5, 3]]
    (Or.inr (Or.inl rfl)) rfl rfl (by decide)

/-- The beam-search candidate-selection step of
`BeamSearch_Cuda::NextTokensFromLogits`: the fast two-stage selector runs
only under the scratch-sizing precondition `num_beams ≤ 32`; otherwise the
function hits `assert(false)` and produces no candidate output (`none`). -/
def BeamSearchNextTokens (num_beams k psz vocab : ℕ)
    (batch : List (List (List ℚ))) : Option (List (List Cand)) :=
  if num_beams ≤ 32 then some (batch.map (twoStageTopK k psz vocab)) else none

/-- C4: if `num_beams > 32`, beam-search candidate selection fails fatally
as a hard precondition violation and never produces candidate output. -/
theorem beamSearchNextTokens_fatal_of_gt32 (num_beams k psz vocab : ℕ)
    (batch : List (List (List ℚ))) (h : 32 < num_beams) :
    BeamSearchNextTokens num_beams k psz vocab batch = none := by
  unfold BeamSearchNextTokens
  rw [if_neg (by omega)]

/-- Witness for C4: `num_beams = 33` yields no candidate output. -/
theorem beamSearchNextTokens_fatal_of_gt32_witness :
    BeamSearchNextTokens 33 66 1 5 [[[1, 2, 3, 4, 5]]] = none :=
  beamSearchNextTokens_fatal_of_gt32 33 66 1 5 [[[1, 2, 3, 4, 5]]] (by decide)

/-- The copy loop of `Search_Cuda::SetLogits`: one iteration per
batch-beam slot, reading `vocab` scores at the running offset
`current_logits` and advancing it by `input_length * vocab` per slot.
`f` stands for the device kernel `cuda::Launch_log_softmax` applied in
place to the copied row; the kernel's definition is not in the source
tree, so the row transform is kept abstract. -/
def SetLogitsLoop (f : List ℚ → List ℚ) (vocab L : ℕ) (logits : List ℚ) :
    ℕ → ℕ → List (List ℚ)
  | 0, _ => []
  | n + 1, off =>
    f ((logits.drop off).take vocab) :: SetLogitsLoop f vocab L logits n (off + L * vocab)

/-- The rows written by `Search_Cuda::SetLogits` for derived input
length `L`: the loop starts at offset `(L - 1) * vocab` (the last
position) and runs `batch_beam_size` times. -/
def SetLogitsRows (f : List ℚ → List ℚ) (bbs vocab L : ℕ)
    (logits : List ℚ) : List (List ℚ) :=
  SetLogitsLoop f vocab L logits bbs ((L - 1) * vocab)

/-- `Search_Cuda::SetLogits`: derives
`input_length = logits.size() / (batch_beam_size * vocab_size)`, asserts
that the division is exact and that `input_length == 1` (both fatal when
violated, modelled as `none`), then fills the score matrix. -/
def SetLogits (f : List ℚ → List ℚ) (bbs vocab : ℕ)
    (logits : List ℚ) : Option (List (List ℚ)) :=
  if logits.length % (bbs * vocab) = 0 ∧ logits.length / (bbs * vocab) = 1 then
    some (SetLogitsRows f bbs vocab (logits.length / (bbs * vocab)) logits)
  else none

/-- C3: `SetLogits` fails with a fatal assertion exactly for the logits
buffers whose element count differs from
`batch_beam_size × vocab_size` — whenever the derived `input_length` is
not 1, including inexact multiples; `input_length == 1` is the only
supported case. -/
theorem setLogits_fatal_iff (f : List ℚ → List ℚ) (bbs vocab : ℕ)
    (logits : List ℚ) (h : 0 < bbs * vocab) :
    SetLogits f bbs vocab logits = none ↔ logits.length ≠ bbs * vocab := by
  unfold SetLogits
  by_cases hc : logits.length % (bbs * vocab) = 0 ∧
      logits.length / (bbs * vocab) = 1
  · have hlen : logits.length = bbs * vocab := by
      have hdm := Nat.div_add_mod logits.length (bbs * vocab)
      rw [hc.1, hc.2] at hdm
      omega
    rw [if_pos hc]
    simp [hlen]
  · rw [if_neg hc]
    simp only [iff_true_intro rfl, true_iff]
    intro heq
    apply hc
    rw [heq]
    exact ⟨Nat.mod_self _, Nat.div_self h⟩

/-- Witness for C3: a 5-element buffer with `batch_beam_size × vocab_size
= 6` is rejected. -/
theorem setLogits_fatal_iff_witness :
    SetLogits id 2 3 [1, 2, 3, 4, 5] = none :=
  (setLogits_fatal_iff id 2 3 [1, 2, 3, 4, 5] (by decide)).mpr (by decide)

theorem setLogitsLoop_getElem (f : List ℚ → List ℚ) (vocab L : ℕ)
    (logits : List ℚ) :
    ∀ (n off i : ℕ), i < n →
      (SetLogitsLoop f vocab L logits n off)[i]? =
        some (f ((logits.drop (off + i * (L * vocab))).take vocab)) := by
  intro n
  induction n with
  | zero => intro off i hi; omega
  | succ n ih =>
    intro off i hi
    cases i with
    | zero => simp [SetLogitsLoop]
    | succ i =>
      rw [SetLogitsLoop]
      have h1 := ih (off + L * vocab) i (by omega)
      have harith : off + L * vocab + i * (L * vocab) = off + (i + 1) * (L * vocab) := by
        ring
      rw [List.getElem?_cons_succ, h1, harith]

/-- C10: for a logits buffer with derived input length `L ≥ 1`,
`SetLogits` reads only the last position of each slot — slot `i`'s row is
the row transform applied to the logits sub-range of length `vocab`
starting at `(i * L + (L - 1)) * vocab`. -/
theorem setLogitsRows_reads_last (f : List ℚ → List ℚ) (bbs vocab L : ℕ)
    (logits : List ℚ) (hL : 1 ≤ L) (i : ℕ) (hi : i < bbs) :
    (SetLogitsRows f bbs vocab L logits)[i]? =
      some (f ((logits.drop ((i * L + (L - 1)) * vocab)).take vocab)) := by
  unfold SetLogitsRows
  rw [setLogitsLoop_getElem f vocab L logits bbs ((L - 1) * vocab) i hi]
  have harith : (L - 1) * vocab + i * (L * vocab) = (i * L + (L - 1)) * vocab := by
    generalize L - 1 = t
    ring
  rw [harith]

/-- Witness for C10: with two slots, `vocab = 2` and `L = 2`, slot 1's
row is read from offset `(1 * 2 + 1) * 2 = 6`. -/
theorem setLogitsRows_reads_last_witness :
    (SetLogitsRows id 2 2 2 [1, 2, 3, 4, 5, 6, 7, 8])[1]? =
      some (id (([(1 : ℚ), 2, 3, 4, 5, 6, 7, 8].drop ((1 * 2 + (2 - 1)) * 2)).take 2)) :=
  setLogitsRows_reads_last id 2 2 2 [1, 2, 3, 4, 5, 6, 7, 8] (by decide) 1 (by decide)

/-- Offsets inside distinct rows of the flattened score matrix never
collide: row `a`'s entries `a * vocab + t` (`t < vocab`) are disjoint
from row `b`'s. -/
theorem row_offsets_disjoint (a b t u vocab : ℕ) (hab : a ≠ b)
    (ht : t < vocab) (hu : u < vocab) :
    a * vocab + t ≠ b * vocab + u := by
  rcases Nat.lt_or_ge a b with h | h
  · have hle : a * vocab + 1 * vocab ≤ b * vocab := by
      rw [← Nat.add_mul]
      exact Nat.mul_le_mul_right vocab (by omega)
    omega
  · have hba : b < a := by omega
    have hle : b * vocab + 1 * vocab ≤ a * vocab := by
      rw [← Nat.add_mul]
      exact Nat.mul_le_mul_right vocab (by omega)
    omega

/-- `Search_Cuda::GetScores(batch_beam_index)`: asserts
`0 ≤ batch_beam_index < batch_beam_size` (fatal when violated, modelled
as `none`) and returns the `vocab_size`-length subspan of the score
matrix starting at `batch_beam_index * vocab_size`. -/
def GetScores (bbs vocab : ℕ) (scores : List ℚ) (i : ℤ) : Option (List ℚ) :=
  if 0 ≤ i ∧ i < bbs then
    some ((scores.drop (i.toNat * vocab)).take vocab)
  else none

/-- C8: under the asserted precondition `0 ≤ i < batch_beam_size`,
`GetScores` returns exactly the `vocab_size`-length contiguous row at
offset `i * vocab_size`; outside the precondition it fails; and rows of
distinct valid indices occupy disjoint offset ranges. -/
theorem getScores_spec (bbs vocab : ℕ) (scores : List ℚ) (i j : ℤ)
    (hi : 0 ≤ i ∧ i < bbs) (hj : 0 ≤ j ∧ j < bbs) (hij : i ≠ j) :
    GetScores bbs vocab scores i =
        some ((scores.drop (i.toNat * vocab)).take vocab) ∧
      (∀ x : ℤ, ¬(0 ≤ x ∧ x < bbs) → GetScores bbs vocab scores x = none) ∧
      (∀ t u : ℕ, t < vocab → u < vocab →
        i.toNat * vocab + t ≠ j.toNat * vocab + u) := by
  refine ⟨?_, ?_, ?_⟩
  · unfold GetScores
    rw [if_pos hi]
  · intro x hx
    unfold GetScores
    rw [if_neg hx]
  · intro t u ht hu
    apply row_offsets_disjoint _ _ _ _ _ _ ht hu
    intro heq
    apply hij
    omega

/-- Witness for C8: three slots of two scores each; slot 0 and slot 2 are
valid, distinct, and their rows do not overlap. -/
theorem getScores_spec_witness :
    GetScores 3 2 [1, 2, 3, 4, 5, 6] 0 =
        some (([(1 : ℚ), 2, 3, 4, 5, 6].drop ((0 : ℤ).toNat * 2)).take 2) ∧
      (∀ x : ℤ, ¬(0 ≤ x ∧ x < 3) → GetScores 3 2 [1, 2, 3, 4, 5, 6] x = none) ∧
      (∀ t u : ℕ, t < 2 → u < 2 →
        (0 : ℤ).toNat * 2 + t ≠ (2 : ℤ).toNat * 2 + u) :=
  getScores_spec 3 2 [1, 2, 3, 4, 5, 6] 0 2 (by decide) (by decide) (by decide)

/-- Repeated `List.set` writes through an index map `g` leave positions
outside the written set unchanged. -/
theorem foldl_setg_not_mem (v : ℚ) (g : ℕ → ℕ) :
    ∀ (ws : List ℕ) (s : List ℚ) (p : ℕ), (∀ w ∈ ws, p ≠ g w) →
      (ws.foldl (fun t w => t.set (g w) v) s)[p]? = s[p]? := by
  intro ws
  induction ws with
  | nil => intro s p _; rfl
  | cons w ws ih =>
    intro s p hp
    rw [List.foldl_cons, ih (s.set (g w) v) p (fun w' hw' => hp w' (List.mem_cons_of_mem _ hw'))]
    have hgw : g w ≠ p := fun hc => hp w (List.mem_cons_self _ _) hc.symm
    simp [hgw]

theorem foldl_setg_length (v : ℚ) (g : ℕ → ℕ) :
    ∀ (ws : List ℕ) (s : List ℚ),
      (ws.foldl (fun t w => t.set (g w) v) s).length = s.length := by
  intro ws
  induction ws with
  | nil => intro s; rfl
  | cons w ws ih =>
    intro s
    rw [List.foldl_cons, ih (s.set (g w) v), List.length_set]

/-- Repeated `List.set` writes through an index map `g` store `v` at
every written in-bounds position. -/
theorem foldl_setg_mem (v : ℚ) (g : ℕ → ℕ) :
    ∀ (ws : List ℕ) (s : List ℚ) (p : ℕ), p ∈ ws.map g → p < s.length →
      (ws.foldl (fun t w => t.set (g w) v) s)[p]? = some v := by
  intro ws
  induction ws with
  | nil => intro s p hp _; simp at hp
  | cons w ws ih =>
    intro s p hp hlen
    by_cases hmem : p ∈ ws.map g
    · rw [List.foldl_cons]
      exact ih (s.set (g w) v) p hmem (by rw [List.length_set]; exact hlen)
    · have hpw : p = g w := by
        rcases List.mem_map.mp hp with ⟨w', hw', hgw'⟩
        rcases List.mem_cons.mp hw' with hh | hh
        · rw [hh] at hgw'
          exact hgw'.symm
        · exact absurd (List.mem_map.mpr ⟨w', hh, hgw'⟩) hmem
      have hnot : ∀ w' ∈ ws, p ≠ g w' := by
        intro w' hw' hc
        exact hmem (List.mem_map.mpr ⟨w', hw', hc.symm⟩)
      rw [List.foldl_cons, foldl_setg_not_mem v g ws _ p hnot]
      subst hpw
      simp [hlen]

/-- `Processors_Cuda::MinLength`: returns immediately once the current
sequence length has reached `min_length`; otherwise writes `lowest` (the
minimum representable score, `std::numeric_limits<ScoreType>::lowest()`,
kept abstract over the rational score model) into the end-of-sequence
entry `i * vocab_size + eos_token_id` of every batch-beam slot `i`, in
ascending slot order. -/
def MinLength (lowest : ℚ) (eos min_length seq_len bbs vocab : ℕ)
    (scores : List ℚ) : List ℚ :=
  if min_length ≤ seq_len then scores
  else (List.range bbs).foldl (fun s i => s.set (i * vocab + eos) lowest) scores

/-- C2: while the sequence length is strictly below `min_length`,
`MinLength` forces the end-of-sequence score of every batch-beam slot to
the minimum representable value; once the length has reached
`min_length` it leaves every score unmodified. -/
theorem minLength_spec (lowest : ℚ) (eos minL seqL bbs vocab : ℕ)
    (scores : List ℚ) :
    (seqL < minL → ∀ i < bbs, i * vocab + eos < scores.length →
      (MinLength lowest eos minL seqL bbs vocab scores)[i * vocab + eos]? =
        some lowest) ∧
    (minL ≤ seqL →
      MinLength lowest eos minL seqL bbs vocab scores = scores) := by
  constructor
  · intro h i hi hlen
    unfold MinLength
    rw [if_neg (by omega)]
    apply foldl_setg_mem lowest (fun w => w * vocab + eos) (List.range bbs)
        scores _ _ hlen
    exact List.mem_map.mpr ⟨i, List.mem_range.mpr hi, rfl⟩
  · intro h
    unfold MinLength
    rw [if_pos h]

/-- Witness for C2: with `min_length = 5`, at sequence length 4 slot 0's
EOS entry becomes the minimum value, and at length 5 the scores are
untouched. -/
theorem minLength_spec_witness :
    (MinLength 0 1 5 4 2 3 [9, 9, 9, 9, 9, 9])[0 * 3 + 1]? = some 0 ∧
      MinLength 0 1 5 5 2 3 [9, 9, 9, 9, 9, 9] = [9, 9, 9, 9, 9, 9] :=
  ⟨(minLength_spec 0 1 5 4 2 3 [9, 9, 9, 9, 9, 9]).1 (by decide) 0 (by decide)
      (by decide),
    (minLength_spec 0 1 5 5 2 3 [9, 9, 9, 9, 9, 9]).2 (by decide)⟩

/-- C9: below `min_length`, `MinLength` modifies only the
end-of-sequence entry of each slot's row — every other token's score is
unchanged. -/
theorem minLength_frame (lowest : ℚ) (eos minL seqL bbs vocab : ℕ)
    (scores : List ℚ) (h : seqL < minL) (heos : eos < vocab) (i t : ℕ)
    (ht : t < vocab) (hne : t ≠ eos) :
    (MinLength lowest eos minL seqL bbs vocab scores)[i * vocab + t]? =
      scores[i * vocab + t]? := by
  unfold MinLength
  rw [if_neg (by omega)]
  apply foldl_setg_not_mem
  intro w hw
  by_cases hiw : i = w
  · subst hiw
    omega
  · exact row_offsets_disjoint i w t eos vocab hiw ht heos

/-- Witness for C9: below `min_length`, slot 1's non-EOS entry at token 2
keeps its original value. -/
theorem minLength_frame_witness :
    (MinLength 0 1 5 4 2 3 [9, 8, 7, 6, 5, 4])[1 * 3 + 2]? =
      [(9 : ℚ), 8, 7, 6, 5, 4][1 * 3 + 2]? :=
  minLength_frame 0 1 5 4 2 3 [9, 8, 7, 6, 5, 4] (by decide) (by decide) 1 2
    (by decide) (by decide)

/-- Modelled from the spec: the per-batch-element state of
`BeamSearchScorer_Cuda` (declared in `beam_search_scorer_cuda.h`, not in
the source tree): the number of completed hypotheses collected, whether
all live beams have terminated, and the DONE flag. -/
structure BeamBatchElem where
  completed : ℕ
  all_beams_done : Bool
  done : Bool

/-- Modelled from the spec: `BeamSearchScorer_Cuda::IsDone` updates the
per-batch DONE transitions — an element becomes DONE when `num_beams`
completions are collected, or all live beams terminated, or the length
cap is hit. -/
def scorerIsDone (num_beams max_length seq_len : ℕ)
    (es : List BeamBatchElem) : List BeamBatchElem :=
  es.map fun e =>
    { e with
      done := e.done || decide (num_beams ≤ e.completed) || e.all_beams_done ||
        decide (seq_len = max_length) }

/-- Modelled from the spec: `BeamSearchScorer_Cuda::IsDoneLater` reports
whether all batch elements have reached DONE. -/
def IsDoneLater (es : List BeamBatchElem) : Bool :=
  es.all (·.done)

/-- `BeamSearch_Cuda::IsDone`: first lets the scorer update its per-batch
DONE transitions, then reports whether the scorer sees every batch
element DONE or the sequence length equals `max_length`. -/
def BeamSearchIsDone (num_beams max_length seq_len : ℕ)
    (es : List BeamBatchElem) : Bool :=
  IsDoneLater (scorerIsDone num_beams max_length seq_len es) ||
    decide (seq_len = max_length)

/-- C5: `BeamSearch_Cuda::IsDone` returns true exactly when every batch
element has reached DONE after the update — DONE meaning it was already
done, or `num_beams` completions are collected, or all live beams
terminated, or the length cap is hit — or the current sequence length
equals `max_length`. -/
theorem beamSearchIsDone_iff (num_beams max_length seq_len : ℕ)
    (es : List BeamBatchElem) :
    BeamSearchIsDone num_beams max_length seq_len es = true ↔
      ((∀ e ∈ es, e.done = true ∨ num_beams ≤ e.completed ∨
          e.all_beams_done = true ∨ seq_len = max_length) ∨
        seq_len = max_length) := by
  unfold BeamSearchIsDone IsDoneLater scorerIsDone
  simp [List.all_eq_true, Bool.or_eq_true, decide_eq_true_iff]
  constructor
  · rintro (hall | hs)
    · left
      intro e he
      have := hall e he
      tauto
    · right
      exact hs
  · rintro (hall | hs)
    · left
      intro e he
      have := hall e he
      tauto
    · right
      exact hs

/-- Modelled from the spec: the state `GreedySearch_Cuda` observes of its
`Sequences` collaborator (`Sequences::AppendNextTokenToSequences` appends
exactly one token per slot and `GetSequenceLength` grows by one per
append; the class is not defined in the source tree), together with the
host-pinned done flag. -/
structure GreedyState where
  seq_len : ℕ
  done : Bool

/-- `GreedySearch_Cuda::AppendNextTokensToSequences`: appends the chosen
next token to every slot (length + 1) and sets the host-pinned done flag
when the new length reaches `max_length`. -/
def AppendNextTokensToSequences (max_length : ℕ) (s : GreedyState) : GreedyState :=
  { seq_len := s.seq_len + 1
    done := if s.seq_len + 1 = max_length then true else s.done }

/-- The decode loop driven by the caller of the step API: while the done
flag is clear (and fuel remains) it executes one append step; returns the
final state and the number of executed steps. -/
def runSteps (max_length : ℕ) : ℕ → GreedyState → GreedyState × ℕ
  | 0, s => (s, 0)
  | n + 1, s =>
    if s.done then (s, 0)
    else
      let p := runSteps max_length n (AppendNextTokensToSequences max_length s)
      (p.1, p.2 + 1)

/-- The length cap discipline: the length never exceeds `max_length`, and
the done flag is set as soon as the cap is reached. -/
def LengthInvariant (max_length : ℕ) (s : GreedyState) : Prop :=
  s.seq_len ≤ max_length ∧ (s.seq_len = max_length → s.done = true)

theorem append_invariant (max_length : ℕ) (s : GreedyState)
    (h : LengthInvariant max_length s) (hd : s.done = false) :
    LengthInvariant max_length (AppendNextTokensToSequences max_length s) := by
  have hlt : s.seq_len < max_length := by
    rcases Nat.lt_or_ge s.seq_len max_length with hc | hc
    · exact hc
    · have : s.seq_len = max_length := le_antisymm h.1 hc
      rw [h.2 this] at hd
      cases hd
  constructor
  · exact hlt
  · intro hm
    have hm' : s.seq_len + 1 = max_length := hm
    unfold AppendNextTokensToSequences
    simp only
    rw [if_pos hm']

theorem runSteps_length (max_length : ℕ) :
    ∀ (n : ℕ) (s : GreedyState), LengthInvariant max_length s →
      (runSteps max_length n s).1.seq_len =
          s.seq_len + (runSteps max_length n s).2 ∧
        (runSteps max_length n s).1.seq_len ≤ max_length := by
  intro n
  induction n with
  | zero => intro s h; exact ⟨rfl, h.1⟩
  | succ n ih =>
    intro s h
    by_cases hd : s.done = true
    · rw [runSteps, if_pos hd]
      exact ⟨rfl, h.1⟩
    · have hd' : s.done = false := by simpa using hd
      have hinv := append_invariant max_length s h hd'
      obtain ⟨ih1, ih2⟩ := ih _ hinv
      rw [runSteps, if_neg hd]
      refine ⟨?_, ih2⟩
      have happ : (AppendNextTokensToSequences max_length s).seq_len =
          s.seq_len + 1 := rfl
      simp only
      omega

/-- C6: appending next tokens increases the sequence length by exactly
one; across the decode loop the length equals the starting (prompt)
length plus the number of executed steps; and under the length-cap
discipline the length never exceeds `max_length` (the done flag set at
the cap stops further appends). -/
theorem greedyAppend_length (max_length n : ℕ) (s : GreedyState)
    (h : LengthInvariant max_length s) :
    (AppendNextTokensToSequences max_length s).seq_len = s.seq_len + 1 ∧
      (runSteps max_length n s).1.seq_len =
        s.seq_len + (runSteps max_length n s).2 ∧
      (runSteps max_length n s).1.seq_len ≤ max_length :=
  ⟨rfl, (runSteps_length max_length n s h).1, (runSteps_length max_length n s h).2⟩

/-- Witness for C6: prompt length 2, `max_length = 5`, ten steps of fuel —
the loop stops at the cap. -/
theorem greedyAppend_length_witness :
    (AppendNextTokensToSequences 5 ⟨2, false⟩).seq_len = 2 + 1 ∧
      (runSteps 5 10 ⟨2, false⟩).1.seq_len = 2 + (runSteps 5 10 ⟨2, false⟩).2 ∧
      (runSteps 5 10 ⟨2, false⟩).1.seq_len ≤ 5 :=
  greedyAppend_length 5 10 ⟨2, false⟩ (by simp [LengthInvariant])

/-- One host-visible operation of a beam-search decode step. -/
inductive StepEvent where
  | addProbs
  | topkStageOne
  | topkStageTwo
  | streamSync
  | scorerProcess
deriving DecidableEq

/-- Device work enqueued on the stream, as opposed to the host-side
synchronization and the host-side read in `BeamScorer.Process`. -/
def deviceWork : StepEvent → Bool
  | .addProbs => true
  | .topkStageOne => true
  | .topkStageTwo => true
  | .streamSync => false
  | .scorerProcess => false

/-- The order of operations of `BeamSearch_Cuda::NextTokensFromLogits`
for `num_beams ≤ 32`: launch AddProbs, launch the two top-k stages (the
kernel's two stages are modelled from the spec — its definition is not
in the source tree), `cudaStreamSynchronize`, then `BeamScorer.Process`
reads the candidate buffers.  `num_beams > 32` hits `assert(false)` and
yields no trace. -/
def NextTokensEventTrace (num_beams : ℕ) : Option (List StepEvent) :=
  if num_beams ≤ 32 then
    some [.addProbs, .topkStageOne, .topkStageTwo, .streamSync, .scorerProcess]
  else none

/-- C7: in every beam-search decode step a full stream synchronization
separates all enqueued device work — including both top-k stages — from
the `BeamScorer.Process` read of the candidate buffers: the trace has a
synchronization index after every device-work event and before every
`Process` event. -/
theorem streamSync_before_process (num_beams : ℕ) (tr : List StepEvent)
    (htr : NextTokensEventTrace num_beams = some tr) :
    ∃ sIdx : ℕ, tr[sIdx]? = some .streamSync ∧
      (∀ i e, tr[i]? = some e → deviceWork e = true → i < sIdx) ∧
      (∀ j, tr[j]? = some .scorerProcess → sIdx < j) := by
  have htr' : tr =
      [.addProbs, .topkStageOne, .topkStageTwo, .streamSync, .scorerProcess] := by
    unfold NextTokensEventTrace at htr
    by_cases h : num_beams ≤ 32
    · rw [if_pos h] at htr
      exact (Option.some.inj htr).symm
    · rw [if_neg h] at htr
      cases htr
  subst htr'
  refine ⟨3, rfl, ?_, ?_⟩
  · intro i e h1 h2
    obtain ⟨hlt, _⟩ := List.getElem?_eq_some_iff.mp h1
    simp only [List.length_cons, List.length_nil] at hlt
    interval_cases i
    all_goals simp only [List.getElem?_cons_zero, List.getElem?_cons_succ] at h1
    all_goals (injection h1 with h1; subst h1)
    all_goals simp [deviceWork] at h2
    all_goals omega
  · intro j hj
    obtain ⟨hlt, _⟩ := List.getElem?_eq_some_iff.mp hj
    simp only [List.length_cons, List.length_nil] at hlt
    interval_cases j
    all_goals simp only [List.getElem?_cons_zero, List.getElem?_cons_succ] at hj
    all_goals (try simp at hj)
    all_goals omega

/-- Witness for C7: the concrete step trace for `num_beams = 4`. -/
theorem streamSync_before_process_witness :
    ∃ sIdx : ℕ,
      ([StepEvent.addProbs, .topkStageOne, .topkStageTwo, .streamSync,
          .scorerProcess][sIdx]?) = some .streamSync ∧
        (∀ i e,
          ([StepEvent.addProbs, .topkStageOne, .topkStageTwo, .streamSync,
              .scorerProcess][i]?) = some e → deviceWork e = true → i < sIdx) ∧
        (∀ j,
          ([StepEvent.addProbs, .topkStageOne, .topkStageTwo, .streamSync,
              .scorerProcess][j]?) = some .scorerProcess → sIdx < j) :=
  streamSync_before_process 4 _ (by decide)

end Generators
